import Mathlib

/-!
Verification development for a console "driver-free" input-automation
utility (single C++ source, `src/main.cpp`).  The core under study is the
line-oriented persistence codec for macros and configuration, the replay
engine, and the store mutation logic.  All definitions below are shallow
embeddings of the corresponding C++ functions, at the level of character
lists (a file's text is its character sequence; `std::getline` splitting
is modelled explicitly).
-/

namespace MacroConsole

/-! ## Character classes, matching the C locale used by the streams -/

/-- Whitespace as recognised by `std::istream` extraction (C locale
`isspace`): space, tab, newline, vertical tab, form feed, carriage
return. -/
def isWs (c : Char) : Bool :=
  decide (c.toNat = 32 ∨ c.toNat = 9 ∨ c.toNat = 10 ∨ c.toNat = 11 ∨
    c.toNat = 12 ∨ c.toNat = 13)

/-- Decimal digit, as in C locale `isdigit` (codes 48–57). -/
def isDigitCh (c : Char) : Bool :=
  decide (48 ≤ c.toNat ∧ c.toNat ≤ 57)

/-- Numeric value of a digit character. -/
def dval (c : Char) : Nat := c.toNat - 48

/-- Value of a digit string read left to right, as `std::num_get` /
`std::stoi` accumulate it. -/
def digitsVal (cs : List Char) : Nat :=
  cs.foldl (fun a c => a * 10 + dval c) 0

/-- Smallest value of the C++ 32-bit `int` (`INT_MIN`, `-2^31`). -/
def intMin : Int := -2147483648

/-- Largest value of the C++ 32-bit `int` (`INT_MAX`, `2^31 - 1`). -/
def intMax : Int := 2147483647

/-! ## Printing integers (the behaviour of `operator<<` on `int`) -/

/-- The decimal digit character for `d < 10` (fallback is irrelevant:
it is only applied to `n % 10`). -/
def digitChar : Nat → Char
  | 0 => '0' | 1 => '1' | 2 => '2' | 3 => '3' | 4 => '4'
  | 5 => '5' | 6 => '6' | 7 => '7' | 8 => '8' | 9 => '9'
  | _ => '?'

/-- Fuel-driven digit expansion; `natDigits` supplies enough fuel. -/
def natDigitsAux : Nat → Nat → List Char → List Char
  | 0, _, acc => acc
  | f + 1, n, acc =>
    if n < 10 then digitChar n :: acc
    else natDigitsAux f (n / 10) (digitChar (n % 10) :: acc)

/-- Decimal digits of a natural number, most significant first. -/
def natDigits (n : Nat) : List Char := natDigitsAux (n + 1) n []

/-- The characters `operator<<` emits for an `int` value. -/
def intChars (v : Int) : List Char :=
  if v < 0 then '-' :: natDigits v.natAbs else natDigits v.toNat

/-- Same, as a string. -/
def intStr (v : Int) : String := String.mk (intChars v)

/-! ## Parsing integers (stream extraction `>>` on `int`, and `stoi`) -/

/-- One run of digits: fails when the first character is not a digit,
otherwise consumes the whole run (trailing text is left in place),
exactly as stream extraction does. -/
def readNatCh (cs : List Char) : Option (Nat × List Char) :=
  match cs.takeWhile isDigitCh with
  | [] => none
  | d :: ds => some (digitsVal (d :: ds), cs.dropWhile isDigitCh)

/-- Range check for a non-negative parse: out-of-range sets `failbit`
(stream) / throws `out_of_range` (`stoi`), i.e. the parse fails. -/
def checkedPos (r : Option (Nat × List Char)) : Option (Int × List Char) :=
  match r with
  | some (n, rest) => if (n : Int) ≤ intMax then some ((n : Int), rest) else none
  | none => none

/-- Range check for a parse after a minus sign (the magnitude may reach
`2^31`, i.e. `-INT_MIN`). -/
def checkedNeg (r : Option (Nat × List Char)) : Option (Int × List Char) :=
  match r with
  | some (n, rest) => if (n : Int) ≤ 2147483648 then some (-(n : Int), rest) else none
  | none => none

/-- `iss >> value` for `int` (also the accepting core of `std::stoi`,
which shares the grammar: optional whitespace, optional sign, base-10
digits, failure when no digit follows or the value exceeds `int`). -/
def readIntCh (cs : List Char) : Option (Int × List Char) :=
  match cs.dropWhile isWs with
  | [] => none
  | c :: r =>
    if c = '-' then checkedNeg (readNatCh r)
    else if c = '+' then checkedPos (readNatCh r)
    else checkedPos (readNatCh (c :: r))

/-- `iss >> dx >> dy` for the `move` step: both extractions must
succeed for the line to count. -/
def readTwoInts (cs : List Char) : Option (Int × Int) :=
  match readIntCh cs with
  | none => none
  | some (dx, r1) =>
    match readIntCh r1 with
    | none => none
    | some (dy, _) => some (dx, dy)

/-- `std::stoi` with the surrounding `try`/`catch` collapsed into an
`Option`: `none` exactly when `stoi` would throw. -/
def stoiOpt (s : String) : Option Int :=
  Option.map Prod.fst (readIntCh s.data)

/-- `iss >> token` for `std::string`: skip whitespace, take the maximal
run of non-whitespace characters; the delimiter is not consumed.
Returns the token (empty on failed extraction) and the remaining
characters of the line. -/
def firstTokenRest (cs : List Char) : String × List Char :=
  (String.mk ((cs.dropWhile isWs).takeWhile (fun c => !isWs c)),
   (cs.dropWhile isWs).dropWhile (fun c => !isWs c))

/-! ## Splitting a text into lines (`std::getline` on an `ifstream`) -/

/-- Worker: `acc` holds the current line's characters in reverse.
A `'\n'` terminates a line; end of input terminates the final line;
a `'\n'` as the very last character does not open an empty extra line
(`getline` fails at end of file having read nothing). -/
def splitLinesAux : List Char → List Char → List String
  | [], acc => [String.mk acc.reverse]
  | c :: cs, acc =>
    if c = '\n' then
      String.mk acc.reverse ::
        (match cs with
         | [] => []
         | _ :: _ => splitLinesAux cs [])
    else splitLinesAux cs (c :: acc)

/-- The sequence of lines `std::getline` yields from a character
sequence; empty input yields no lines. -/
def splitLinesCh : List Char → List String
  | [] => []
  | c :: cs => splitLinesAux (c :: cs) []

/-! ## Data model

`src/main.cpp` stores an action as `struct Action { ActionType type;
int a; int b; }`.  Every code path that builds an action uses field `a`
(and `b` only for `Move`; the other constructors always store `b = 0`),
so the struct is embedded as a tagged union whose variants carry exactly
the fields the program reads. -/

inductive Action
  | Move (dx dy : Int)
  | Click (code : Int)
  | Key (vk : Int)
  | Delay (ms : Int)
deriving DecidableEq

structure Macro where
  name : String
  actions : List Action
deriving DecidableEq

/-- `struct AppConfig { int default_delay_ms = 50; }`. -/
structure AppConfig where
  default_delay_ms : Int
deriving DecidableEq

/-! ## LoadMacros (src/main.cpp lines 70–132) -/

/-- The loop state of `LoadMacros`: the accumulated list (`macros` in
the source, called `store` here), the block being filled (`current`),
and the `in_macro` flag (`inBlock`). -/
structure LoadSt where
  store : List Macro
  current : Macro
  inBlock : Bool
deriving DecidableEq

def pushAction (st : LoadSt) (a : Action) : LoadSt :=
  { st with current := { st.current with actions := st.current.actions ++ [a] } }

/-- `std::getline(iss, current.name)` after the `macro` token, followed
by stripping one leading space when present. -/
def parseName : List Char → String
  | ' ' :: r => String.mk r
  | r => String.mk r

/-- `int code = (button == "right") ? 1 : 0;` (lines 112 and 288). -/
def buttonCode (b : String) : Int := if b = "right" then 1 else 0

/-- The `click` step after `iss >> button`: extraction fails (no push)
exactly when no token remains. -/
def stepClick (st : LoadSt) (bt : String) : LoadSt :=
  if bt = "" then st else pushAction st (Action.Click (buttonCode bt))

/-- Dispatch on the first token of a line, lines 86–126 of the source. -/
def stepTok (st : LoadSt) (token : String) (rest : List Char) : LoadSt :=
  if token = "macro" then
    { store := if st.inBlock then st.store ++ [st.current] else st.store,
      current := { name := parseName rest, actions := [] },
      inBlock := true }
  else if token = "end" then
    if st.inBlock then
      { store := st.store ++ [st.current],
        current := { name := "", actions := [] },
        inBlock := false }
    else st
  else if st.inBlock then
    if token = "move" then
      match readTwoInts rest with
      | some (dx, dy) => pushAction st (Action.Move dx dy)
      | none => st
    else if token = "click" then
      stepClick st (firstTokenRest rest).1
    else if token = "key" then
      match readIntCh rest with
      | some (vk, _) => pushAction st (Action.Key vk)
      | none => st
    else if token = "delay" then
      match readIntCh rest with
      | some (ms, _) => pushAction st (Action.Delay ms)
      | none => st
    else st
  else st

/-- One iteration of the `while (std::getline(in, line))` loop: empty
lines are skipped, otherwise the first token is extracted and
dispatched. -/
def stepLineCh (st : LoadSt) (cs : List Char) : LoadSt :=
  if cs = [] then st
  else stepTok st (firstTokenRest cs).1 (firstTokenRest cs).2

def stepLine (st : LoadSt) (line : String) : LoadSt :=
  stepLineCh st line.data

def initSt : LoadSt :=
  { store := [], current := { name := "", actions := [] }, inBlock := false }

/-- After the loop: `if (in_macro) macros.push_back(current);`. -/
def finishLoad (st : LoadSt) : List Macro :=
  if st.inBlock then st.store ++ [st.current] else st.store

/-- `LoadMacros`, given the lines `std::getline` produced. -/
def LoadMacros (ls : List String) : List Macro :=
  finishLoad (ls.foldl stepLine initSt)

/-- `LoadMacros` on the raw text of `macros.txt`. -/
def LoadMacrosText (s : String) : List Macro :=
  LoadMacros (splitLinesCh s.data)

/-! ## SaveMacros (src/main.cpp lines 134–160) -/

/-- `action.a == 1 ? "right" : "left"` (line 148). -/
def buttonName (code : Int) : String := if code = 1 then "right" else "left"

/-- The one line `SaveMacros` writes for an action (without the
trailing newline). -/
def actionLine (a : Action) : String :=
  match a with
  | Action.Move dx dy => "move " ++ intStr dx ++ " " ++ intStr dy
  | Action.Click code => "click " ++ buttonName code
  | Action.Key vk => "key " ++ intStr vk
  | Action.Delay ms => "delay " ++ intStr ms

/-- The lines `SaveMacros` writes for one macro. -/
def blockLines (m : Macro) : List String :=
  ("macro " ++ m.name) :: m.actions.map actionLine ++ ["end"]

/-- The lines for a whole store, in store order. -/
def linesOf (ms : List Macro) : List String :=
  ms.foldr (fun m acc => blockLines m ++ acc) []

/-- Joining lines back into the written text: every line is followed by
`"\n"`, exactly as the `out << ... << "\n"` statements emit it. -/
def concatLines (ls : List String) : String :=
  ls.foldr (fun l acc => l ++ "\n" ++ acc) ""

/-- The full text `SaveMacros` writes to `macros.txt`. -/
def SaveMacros (ms : List Macro) : String :=
  concatLines (linesOf ms)

/-! ## LoadConfig (src/main.cpp lines 36–59) and SaveConfig -/

/-- One iteration of the `LoadConfig` loop: split at the first `'='`
(skip the line if there is none), and on the recognised key parse the
value with `stoi`, falling back to 50 when it throws. -/
def configStep (config : AppConfig) (line : String) : AppConfig :=
  if line.data.contains '=' then
    (if String.mk (line.data.takeWhile (fun c => c != '=')) = "default_delay_ms" then
      (match stoiOpt (String.mk ((line.data.dropWhile (fun c => c != '=')).drop 1)) with
       | some v => { default_delay_ms := v }
       | none => { default_delay_ms := 50 })
    else config)
  else config

/-- `LoadConfig` given the lines of `config.txt`. -/
def LoadConfigLines (ls : List String) : AppConfig :=
  ls.foldl configStep { default_delay_ms := 50 }

/-- `LoadConfig`: an absent file (`!in`) yields the defaulted record. -/
def LoadConfig (file : Option String) : AppConfig :=
  match file with
  | none => { default_delay_ms := 50 }
  | some text => LoadConfigLines (splitLinesCh text.data)

/-! ## RunMacro (src/main.cpp lines 217–239)

The input sink and the wait primitive are modelled as an event trace:
`MouseClick` and `KeyTap` stand for the single `SendInput` call that
injects the down/up pair. -/

inductive SinkEvent
  | MouseMove (dx dy : Int)
  | MouseClick (right : Bool)
  | KeyTap (vk : Int)
  | SleepMs (ms : Int)
deriving DecidableEq

/-- The `for (action : macro.actions)` loop of `RunMacro`. -/
def runActs : List Action → AppConfig → List SinkEvent
  | [], _ => []
  | Action.Move dx dy :: rest, config =>
    SinkEvent.MouseMove dx dy :: SinkEvent.SleepMs config.default_delay_ms ::
      runActs rest config
  | Action.Click code :: rest, config =>
    SinkEvent.MouseClick (code == 1) :: SinkEvent.SleepMs config.default_delay_ms ::
      runActs rest config
  | Action.Key vk :: rest, config =>
    SinkEvent.KeyTap vk :: SinkEvent.SleepMs config.default_delay_ms ::
      runActs rest config
  | Action.Delay ms :: rest, config =>
    SinkEvent.SleepMs ms :: runActs rest config

def RunMacro (m : Macro) (config : AppConfig) : List SinkEvent :=
  runActs m.actions config

/-- Modelled from the claim: the per-action event block the spec
describes for the execution engine (move/click/key inject then pause
`default_delay_ms`; delay waits its own value only). -/
def replayEventsOf (config : AppConfig) : Action → List SinkEvent
  | Action.Move dx dy => [SinkEvent.MouseMove dx dy, SinkEvent.SleepMs config.default_delay_ms]
  | Action.Click code => [SinkEvent.MouseClick (code == 1), SinkEvent.SleepMs config.default_delay_ms]
  | Action.Key vk => [SinkEvent.KeyTap vk, SinkEvent.SleepMs config.default_delay_ms]
  | Action.Delay ms => [SinkEvent.SleepMs ms]

/-! ## Delete (src/main.cpp lines 345–353) -/

/-- The menu-4 handler: a 1-based index, rejected (`Invalid macro
number.`) when out of range, otherwise `macros.erase(macros.begin() +
(index - 1))`.  The boolean reports whether a removal happened. -/
def DeleteMacroAt (ms : List Macro) (index : Int) : List Macro × Bool :=
  if index < 1 ∨ (ms.length : Int) < index then (ms, false)
  else (ms.eraseIdx (index - 1).toNat, true)

/-! ## CreateMacro (src/main.cpp lines 261–311)

The interactive input stream is modelled as the list of lines remaining
on `std::cin`; an empty list is end of file. -/

/-- `ReadIndex`: one `getline` then `stoi`; EOF and parse failure both
yield `-1`. -/
def readIndexL : List String → Int × List String
  | [] => (-1, [])
  | l :: r => ((stoiOpt l).getD (-1), r)

/-- `ReadLine`: one `getline`; on EOF the string stays empty. -/
def readLineL : List String → String × List String
  | [] => ("", [])
  | l :: r => (l, r)

/-- The `while (true)` step-entry loop of `CreateMacro`: `done` or EOF
breaks, recognised steps read their arguments (invalid numbers are
rejected with `continue`), unrecognised steps are reported and skipped.
Returns the finished macro and the unconsumed input. -/
def createLoop (m : Macro) (input : List String) : Macro × List String :=
  match input with
  | [] => (m, [])
  | step :: rest =>
    if step = "done" then (m, rest)
    else if step = "move" then
      (if (readIndexL rest).1 = -1 ∨ (readIndexL rest.tail).1 = -1 then
        createLoop m rest.tail.tail
      else
        createLoop
          { m with actions := m.actions ++
              [Action.Move (readIndexL rest).1 (readIndexL rest.tail).1] }
          rest.tail.tail)
    else if step = "click" then
      createLoop
        { m with actions := m.actions ++ [Action.Click (buttonCode (readLineL rest).1)] }
        rest.tail
    else if step = "key" then
      (if (readIndexL rest).1 = -1 then createLoop m rest.tail
      else createLoop { m with actions := m.actions ++ [Action.Key (readIndexL rest).1] }
        rest.tail)
    else if step = "delay" then
      (if (readIndexL rest).1 = -1 then createLoop m rest.tail
      else createLoop { m with actions := m.actions ++ [Action.Delay (readIndexL rest).1] }
        rest.tail)
    else createLoop m rest
termination_by input.length
decreasing_by
all_goals
  simp only [List.length_cons, List.length_tail]
  omega

/-- `CreateMacro`: read the name (EOF leaves it empty), reject an empty
name without touching the store, otherwise run the step loop and append
the result. -/
def CreateMacro (ms : List Macro) (input : List String) : List Macro × List String :=
  if (readLineL input).1 = "" then (ms, (readLineL input).2)
  else
    (ms ++ [(createLoop { name := (readLineL input).1, actions := [] } (readLineL input).2).1],
     (createLoop { name := (readLineL input).1, actions := [] } (readLineL input).2).2)

/-! ## Well-formedness predicates used by the claims -/

/-- A value representable in the C++ `int` fields of `Action`. -/
def inIntRange (v : Int) : Bool := decide (intMin ≤ v ∧ v ≤ intMax)

/-- The data-model constraints of an action: numeric fields are `int`
values, a click's button code is left (0) or right (1). -/
def wfA : Action → Bool
  | Action.Move dx dy => inIntRange dx && inIntRange dy
  | Action.Click code => decide (code = 0 ∨ code = 1)
  | Action.Key vk => inIntRange vk
  | Action.Delay ms => inIntRange ms

/-- The click-code invariant of a single action. -/
def clickOK : Action → Bool
  | Action.Click code => decide (code = 0 ∨ code = 1)
  | _ => true

/-- Every click action of the macro carries code 0 or 1. -/
def macroClicksOK (m : Macro) : Bool := m.actions.all clickOK

/-- The click-code invariant of a loader state: it holds for every
finished macro and for the block being filled. -/
def stInv (st : LoadSt) : Prop :=
  (∀ m ∈ st.store, macroClicksOK m = true) ∧ macroClicksOK st.current = true

/-! ## Lemmas: decimal printing and its parse -/

lemma digitChar_isDigit : ∀ d, d < 10 → isDigitCh (digitChar d) = true := by decide

lemma digitChar_dval : ∀ d, d < 10 → dval (digitChar d) = d := by decide

lemma natDigitsAux_acc : ∀ f n acc, natDigitsAux f n acc = natDigitsAux f n [] ++ acc := by
  intro f
  induction f with
  | zero => intro n acc; simp [natDigitsAux]
  | succ f ih =>
    intro n acc
    by_cases h : n < 10
    · simp [natDigitsAux, h]
    · simp only [natDigitsAux, if_neg h]
      rw [ih (n / 10) (digitChar (n % 10) :: acc), ih (n / 10) [digitChar (n % 10)]]
      simp

lemma natDigitsAux_fuel : ∀ f g n acc, n < f → n < g →
    natDigitsAux f n acc = natDigitsAux g n acc := by
  intro f
  induction f with
  | zero => intro g n acc hf; omega
  | succ f ih =>
    intro g n acc hf hg
    cases g with
    | zero => omega
    | succ g =>
      by_cases h : n < 10
      · simp [natDigitsAux, h]
      · simp only [natDigitsAux, if_neg h]
        exact ih g (n / 10) _ (by omega) (by omega)

lemma natDigits_unfold (n : Nat) :
    natDigits n = if n < 10 then [digitChar n]
      else natDigits (n / 10) ++ [digitChar (n % 10)] := by
  by_cases h : n < 10
  · simp [natDigits, natDigitsAux, h]
  · rw [if_neg h]
    have step : natDigitsAux (n + 1) n [] = natDigitsAux n (n / 10) [digitChar (n % 10)] := by
      simp [natDigitsAux, h]
    show natDigitsAux (n + 1) n [] = _
    rw [step, natDigitsAux_acc n (n / 10) [digitChar (n % 10)],
      natDigitsAux_fuel n (n / 10 + 1) (n / 10) [] (by omega) (by omega)]
    rfl

lemma natDigits_ne_nil (n : Nat) : natDigits n ≠ [] := by
  rw [natDigits_unfold]
  by_cases h : n < 10 <;> simp [h]

lemma natDigits_all_digits (n : Nat) : ∀ c ∈ natDigits n, isDigitCh c = true := by
  induction n using Nat.strong_induction_on with
  | _ n ih =>
    rw [natDigits_unfold]
    by_cases h : n < 10
    · simp [h, digitChar_isDigit n h]
    · simp only [if_neg h, List.mem_append, List.mem_singleton]
      rintro c (hc | rfl)
      · exact ih (n / 10) (by omega) c hc
      · exact digitChar_isDigit (n % 10) (by omega)

lemma digitsVal_append_one (cs : List Char) (c : Char) :
    digitsVal (cs ++ [c]) = digitsVal cs * 10 + dval c := by
  simp [digitsVal, List.foldl_append]

lemma digitsVal_natDigits (n : Nat) : digitsVal (natDigits n) = n := by
  induction n using Nat.strong_induction_on with
  | _ n ih =>
    rw [natDigits_unfold]
    by_cases h : n < 10
    · simp [h, digitsVal, digitChar_dval n h]
    · rw [if_neg h, digitsVal_append_one, ih (n / 10) (by omega),
        digitChar_dval (n % 10) (by omega)]
      omega

lemma isDigit_not_ws (c : Char) (h : isDigitCh c = true) : isWs c = false := by
  simp only [isDigitCh, decide_eq_true_eq] at h
  simp only [isWs, decide_eq_false_iff_not]
  omega

lemma isDigit_ne_minus (c : Char) (h : isDigitCh c = true) : c ≠ '-' := by
  rintro rfl; simp [isDigitCh] at h

lemma isDigit_ne_plus (c : Char) (h : isDigitCh c = true) : c ≠ '+' := by
  rintro rfl; simp [isDigitCh] at h

lemma isDigit_ne_newline (c : Char) (h : isDigitCh c = true) : c ≠ '\n' := by
  rintro rfl; simp [isDigitCh] at h

lemma intChars_no_newline (v : Int) : '\n' ∉ intChars v := by
  have hnat : ∀ n, '\n' ∉ natDigits n := by
    intro n hmem
    exact isDigit_ne_newline '\n' (natDigits_all_digits n '\n' hmem) rfl
  unfold intChars
  by_cases h : v < 0
  · simp only [if_pos h, List.mem_cons]
    rintro (h' | h')
    · exact absurd h'.symm (by decide)
    · exact hnat _ h'
  · simp only [if_neg h]
    exact hnat _

lemma takeWhile_append_all {p : Char → Bool} {xs ys : List Char}
    (h : ∀ x ∈ xs, p x = true) (hy : ys.takeWhile p = []) :
    (xs ++ ys).takeWhile p = xs := by
  induction xs with
  | nil => rw [List.nil_append]; exact hy
  | cons x xs ih =>
    have hx := h x (by simp)
    have ih' := ih (fun a ha => h a (by simp [ha]))
    simp [List.takeWhile_cons, hx, ih']

lemma dropWhile_append_all {p : Char → Bool} {xs ys : List Char}
    (h : ∀ x ∈ xs, p x = true) (hy : ys.dropWhile p = ys) :
    (xs ++ ys).dropWhile p = ys := by
  induction xs with
  | nil => rw [List.nil_append]; exact hy
  | cons x xs ih =>
    have hx := h x (by simp)
    have ih' := ih (fun a ha => h a (by simp [ha]))
    simp [List.dropWhile_cons, hx, ih']

lemma readNatCh_roundtrip (n : Nat) (tail : List Char)
    (hT : tail.takeWhile isDigitCh = []) (hD : tail.dropWhile isDigitCh = tail) :
    readNatCh (natDigits n ++ tail) = some (n, tail) := by
  have hall := natDigits_all_digits n
  unfold readNatCh
  rw [takeWhile_append_all hall hT, dropWhile_append_all hall hD]
  cases hnd : natDigits n with
  | nil => exact absurd hnd (natDigits_ne_nil n)
  | cons c cs =>
    have hval : digitsVal (c :: cs) = n := by rw [← hnd, digitsVal_natDigits]
    simp [hval]

lemma data_mk (l : List Char) : (String.mk l).data = l := rfl

lemma mk_data (s : String) : String.mk s.data = s := rfl

lemma readIntCh_roundtrip (v : Int) (tail : List Char)
    (hlo : intMin ≤ v) (hhi : v ≤ intMax)
    (hT : tail.takeWhile isDigitCh = []) (hD : tail.dropWhile isDigitCh = tail) :
    readIntCh (' ' :: (intChars v ++ tail)) = some (v, tail) := by
  unfold readIntCh
  rw [show (' ' :: (intChars v ++ tail)).dropWhile isWs = (intChars v ++ tail).dropWhile isWs
    from by simp [List.dropWhile_cons, show isWs ' ' = true from rfl]]
  simp only [intMin, intMax] at hlo hhi
  by_cases hv : v < 0
  · rw [show intChars v = '-' :: natDigits v.natAbs from by simp [intChars, hv]]
    rw [show (('-' :: natDigits v.natAbs) ++ tail).dropWhile isWs =
        '-' :: (natDigits v.natAbs ++ tail)
      from by simp [List.dropWhile_cons, show isWs '-' = false from rfl]]
    show (if ('-' : Char) = '-' then checkedNeg (readNatCh (natDigits v.natAbs ++ tail))
      else _) = _
    rw [if_pos rfl, readNatCh_roundtrip v.natAbs tail hT hD]
    show (if ((v.natAbs : Int)) ≤ 2147483648 then some (-(v.natAbs : Int), tail)
      else none) = _
    rw [if_pos (by omega)]
    have hval : -((v.natAbs : Int)) = v := by omega
    rw [hval]
  · rw [show intChars v = natDigits v.toNat from by simp [intChars, hv]]
    cases hnd : natDigits v.toNat with
    | nil => exact absurd hnd (natDigits_ne_nil v.toNat)
    | cons d ds =>
      have hdig : isDigitCh d = true :=
        natDigits_all_digits v.toNat d (by rw [hnd]; simp)
      rw [show ((d :: ds) ++ tail).dropWhile isWs = d :: (ds ++ tail) from by
        simp [List.dropWhile_cons, isDigit_not_ws d hdig]]
      show (if d = '-' then checkedNeg (readNatCh (ds ++ tail))
        else if d = '+' then checkedPos (readNatCh (ds ++ tail))
        else checkedPos (readNatCh (d :: (ds ++ tail)))) = _
      rw [if_neg (isDigit_ne_minus d hdig), if_neg (isDigit_ne_plus d hdig)]
      rw [show d :: (ds ++ tail) = (d :: ds) ++ tail from rfl, ← hnd]
      rw [readNatCh_roundtrip v.toNat tail hT hD]
      show (if ((v.toNat : Int)) ≤ intMax then some ((v.toNat : Int), tail)
        else none) = _
      rw [if_pos (by simp only [intMax]; omega)]
      have hval : ((v.toNat : Int)) = v := by omega
      rw [hval]

lemma readIntCh_exact (v : Int) (hlo : intMin ≤ v) (hhi : v ≤ intMax) :
    readIntCh (' ' :: intChars v) = some (v, []) := by
  have h := readIntCh_roundtrip v [] hlo hhi rfl rfl
  simpa using h

lemma readTwoInts_pair (dx dy : Int)
    (hdx1 : intMin ≤ dx) (hdx2 : dx ≤ intMax) (hdy1 : intMin ≤ dy) (hdy2 : dy ≤ intMax) :
    readTwoInts (' ' :: (intChars dx ++ ' ' :: intChars dy)) = some (dx, dy) := by
  simp [readTwoInts, readIntCh_roundtrip dx (' ' :: intChars dy) hdx1 hdx2 rfl rfl,
    readIntCh_exact dy hdy1 hdy2]

/-! ## Lemmas: line splitting -/

lemma splitLinesAux_line (l1 : List Char) (acc : List Char) (cs : List Char)
    (h : '\n' ∉ l1) :
    splitLinesAux (l1 ++ '\n' :: cs) acc =
      String.mk (acc.reverse ++ l1) :: splitLinesCh cs := by
  induction l1 generalizing acc with
  | nil =>
    rw [List.nil_append]
    show (if '\n' = '\n' then _ else _) = _
    rw [if_pos rfl]
    cases cs <;> simp [splitLinesCh]
  | cons c l1 ih =>
    have hc : c ≠ '\n' := by rintro rfl; simp at h
    have h' : '\n' ∉ l1 := fun hm => h (by simp [hm])
    rw [List.cons_append]
    show (if c = '\n' then _ else splitLinesAux (l1 ++ '\n' :: cs) (c :: acc)) = _
    rw [if_neg hc, ih (c :: acc) h']
    simp

lemma splitLinesCh_line (l : String) (rest : List Char) (h : '\n' ∉ l.data) :
    splitLinesCh (l.data ++ '\n' :: rest) = l :: splitLinesCh rest := by
  have key := splitLinesAux_line l.data [] rest h
  rw [List.reverse_nil, List.nil_append, mk_data] at key
  cases hd : l.data with
  | nil => rw [hd, List.nil_append] at key; rw [List.nil_append]; exact key
  | cons c cs => rw [hd] at key; exact key

lemma splitLinesCh_concat (ls : List String) (h : ∀ l ∈ ls, '\n' ∉ l.data) :
    splitLinesCh (concatLines ls).data = ls := by
  induction ls with
  | nil => rfl
  | cons l ls ih =>
    have hdata : (concatLines (l :: ls)).data = l.data ++ '\n' :: (concatLines ls).data := by
      show (l ++ "\n" ++ concatLines ls).data = _
      rw [String.data_append, String.data_append]
      simp
    rw [hdata, splitLinesCh_line l _ (h l (by simp)),
      ih (fun a ha => h a (by simp [ha]))]

/-! ## Lemmas: the LoadMacros line dispatcher -/

lemma tok_header (t : List Char) :
    firstTokenRest ('m' :: 'a' :: 'c' :: 'r' :: 'o' :: ' ' :: t) = ("macro", ' ' :: t) := rfl

lemma tok_move (t : List Char) :
    firstTokenRest ('m' :: 'o' :: 'v' :: 'e' :: ' ' :: t) = ("move", ' ' :: t) := rfl

lemma tok_key (t : List Char) :
    firstTokenRest ('k' :: 'e' :: 'y' :: ' ' :: t) = ("key", ' ' :: t) := rfl

lemma tok_delay (t : List Char) :
    firstTokenRest ('d' :: 'e' :: 'l' :: 'a' :: 'y' :: ' ' :: t) = ("delay", ' ' :: t) := rfl

lemma data_header (n : String) :
    ("macro " ++ n).data = 'm' :: 'a' :: 'c' :: 'r' :: 'o' :: ' ' :: n.data := by
  rw [String.data_append]; rfl

lemma stepLine_header (st : LoadSt) (n : String) :
    stepLine st ("macro " ++ n) =
      { store := if st.inBlock then st.store ++ [st.current] else st.store,
        current := { name := n, actions := [] }, inBlock := true } := by
  unfold stepLine stepLineCh
  rw [data_header, tok_header]
  rw [if_neg (by simp)]
  show stepTok st "macro" (' ' :: n.data) = _
  unfold stepTok
  rw [if_pos rfl]
  rfl

lemma stepLine_end_true (st : LoadSt) (h : st.inBlock = true) :
    stepLine st "end" =
      { store := st.store ++ [st.current],
        current := { name := "", actions := [] }, inBlock := false } := by
  rcases st with ⟨s, c, ib⟩
  cases ib
  · simp at h
  · rfl

lemma stepLine_end_false (st : LoadSt) (h : st.inBlock = false) :
    stepLine st "end" = st := by
  rcases st with ⟨s, c, ib⟩
  cases ib
  · rfl
  · simp at h

lemma wfA_move {dx dy : Int} (h : wfA (Action.Move dx dy) = true) :
    (intMin ≤ dx ∧ dx ≤ intMax) ∧ intMin ≤ dy ∧ dy ≤ intMax := by
  simp only [wfA, inIntRange, Bool.and_eq_true, decide_eq_true_eq] at h
  exact h

lemma stepLine_move (st : LoadSt) (dx dy : Int) (h : st.inBlock = true)
    (hwf : wfA (Action.Move dx dy) = true) :
    stepLine st (actionLine (Action.Move dx dy)) = pushAction st (Action.Move dx dy) := by
  obtain ⟨⟨h1, h2⟩, h3, h4⟩ := wfA_move hwf
  have hdata : (actionLine (Action.Move dx dy)).data =
      'm' :: 'o' :: 'v' :: 'e' :: ' ' :: (intChars dx ++ ' ' :: intChars dy) := by
    show ( "move " ++ intStr dx ++ " " ++ intStr dy).data = _
    rw [String.data_append, String.data_append, String.data_append]
    show (((['m', 'o', 'v', 'e', ' '] ++ intChars dx) ++ [' ']) ++ intChars dy) = _
    simp
  unfold stepLine stepLineCh
  rw [hdata, tok_move, if_neg (by simp)]
  show stepTok st "move" (' ' :: (intChars dx ++ ' ' :: intChars dy)) = _
  unfold stepTok
  rw [if_neg (by decide), if_neg (by decide), if_pos h, if_pos rfl,
    readTwoInts_pair dx dy h1 h2 h3 h4]

lemma stepLine_click (st : LoadSt) (code : Int) (h : st.inBlock = true)
    (hwf : wfA (Action.Click code) = true) :
    stepLine st (actionLine (Action.Click code)) = pushAction st (Action.Click code) := by
  have hc : code = 0 ∨ code = 1 := by
    simpa only [wfA, decide_eq_true_eq] using hwf
  rcases st with ⟨s, c, ib⟩
  cases ib
  · simp at h
  · rcases hc with rfl | rfl
    · rfl
    · rfl

lemma stepLine_key (st : LoadSt) (vk : Int) (h : st.inBlock = true)
    (hwf : wfA (Action.Key vk) = true) :
    stepLine st (actionLine (Action.Key vk)) = pushAction st (Action.Key vk) := by
  have hr : intMin ≤ vk ∧ vk ≤ intMax := by
    simpa only [wfA, inIntRange, decide_eq_true_eq] using hwf
  have hdata : (actionLine (Action.Key vk)).data =
      'k' :: 'e' :: 'y' :: ' ' :: intChars vk := by
    show ( "key " ++ intStr vk).data = _
    rw [String.data_append]
    rfl
  unfold stepLine stepLineCh
  rw [hdata, tok_key, if_neg (by simp)]
  show stepTok st "key" (' ' :: intChars vk) = _
  unfold stepTok
  rw [if_neg (by decide), if_neg (by decide), if_pos h, if_neg (by decide),
    if_neg (by decide), if_pos rfl, readIntCh_exact vk hr.1 hr.2]

lemma stepLine_delay (st : LoadSt) (ms : Int) (h : st.inBlock = true)
    (hwf : wfA (Action.Delay ms) = true) :
    stepLine st (actionLine (Action.Delay ms)) = pushAction st (Action.Delay ms) := by
  have hr : intMin ≤ ms ∧ ms ≤ intMax := by
    simpa only [wfA, inIntRange, decide_eq_true_eq] using hwf
  have hdata : (actionLine (Action.Delay ms)).data =
      'd' :: 'e' :: 'l' :: 'a' :: 'y' :: ' ' :: intChars ms := by
    show ( "delay " ++ intStr ms).data = _
    rw [String.data_append]
    rfl
  unfold stepLine stepLineCh
  rw [hdata, tok_delay, if_neg (by simp)]
  show stepTok st "delay" (' ' :: intChars ms) = _
  unfold stepTok
  rw [if_neg (by decide), if_neg (by decide), if_pos h, if_neg (by decide),
    if_neg (by decide), if_neg (by decide), if_pos rfl, readIntCh_exact ms hr.1 hr.2]

lemma stepLine_action (a : Action) (st : LoadSt) (h : st.inBlock = true)
    (hwf : wfA a = true) :
    stepLine st (actionLine a) = pushAction st a := by
  cases a with
  | Move dx dy => exact stepLine_move st dx dy h hwf
  | Click code => exact stepLine_click st code h hwf
  | Key vk => exact stepLine_key st vk h hwf
  | Delay ms => exact stepLine_delay st ms h hwf

lemma pushAction_inBlock (st : LoadSt) (a : Action) :
    (pushAction st a).inBlock = st.inBlock := rfl

lemma foldl_actionLines (acts : List Action) (st : LoadSt) (h : st.inBlock = true)
    (hwf : ∀ a ∈ acts, wfA a = true) :
    (acts.map actionLine).foldl stepLine st =
      { st with current := { st.current with actions := st.current.actions ++ acts } } := by
  induction acts generalizing st with
  | nil => simp
  | cons a acts ih =>
    rw [List.map_cons, List.foldl_cons, stepLine_action a st h (hwf a (by simp)),
      ih (pushAction st a) h (fun b hb => hwf b (by simp [hb]))]
    simp [pushAction]

lemma foldl_blockLines (m : Macro) (st : LoadSt) (h : st.inBlock = false)
    (hwf : ∀ a ∈ m.actions, wfA a = true) :
    (blockLines m).foldl stepLine st =
      { store := st.store ++ [m],
        current := { name := "", actions := [] }, inBlock := false } := by
  show ((("macro " ++ m.name) :: (m.actions.map actionLine ++ ["end"])).foldl stepLine st) = _
  rw [List.foldl_cons, stepLine_header st m.name, h]
  rw [if_neg (by simp)]
  rw [List.foldl_append]
  rw [foldl_actionLines m.actions _ rfl hwf]
  show stepLine (LoadSt.mk st.store (Macro.mk m.name ([] ++ m.actions)) true) "end" = _
  rw [stepLine_end_true _ rfl]
  simp

lemma foldl_linesOf (ms : List Macro) (st : LoadSt) (h : st.inBlock = false)
    (hwf : ∀ m ∈ ms, ∀ a ∈ m.actions, wfA a = true) :
    ((linesOf ms).foldl stepLine st).store = st.store ++ ms ∧
      ((linesOf ms).foldl stepLine st).inBlock = false := by
  induction ms generalizing st with
  | nil => simpa [linesOf] using h
  | cons m ms ih =>
    have hsplit : linesOf (m :: ms) = blockLines m ++ linesOf ms := rfl
    rw [hsplit, List.foldl_append, foldl_blockLines m st h (hwf m (by simp))]
    obtain ⟨ha, hb⟩ := ih (LoadSt.mk (st.store ++ [m]) (Macro.mk "" []) false) rfl
      (fun m' hm' => hwf m' (by simp [hm']))
    constructor
    · rw [ha]; simp
    · exact hb

lemma actionLine_no_newline (a : Action) : '\n' ∉ (actionLine a).data := by
  cases a with
  | Move dx dy =>
    show '\n' ∉ ( "move " ++ intStr dx ++ " " ++ intStr dy).data
    rw [String.data_append, String.data_append, String.data_append]
    simp only [List.mem_append]
    rintro (((hm | hm) | hm) | hm)
    · exact absurd hm (by decide)
    · exact intChars_no_newline dx hm
    · exact absurd hm (by decide)
    · exact intChars_no_newline dy hm
  | Click code =>
    show '\n' ∉ ( "click " ++ buttonName code).data
    rw [String.data_append]
    simp only [List.mem_append]
    rintro (hm | hm)
    · exact absurd hm (by decide)
    · revert hm
      unfold buttonName
      by_cases hc : code = 1 <;> simp [hc]
  | Key vk =>
    show '\n' ∉ ( "key " ++ intStr vk).data
    rw [String.data_append]
    simp only [List.mem_append]
    rintro (hm | hm)
    · exact absurd hm (by decide)
    · exact intChars_no_newline vk hm
  | Delay ms =>
    show '\n' ∉ ( "delay " ++ intStr ms).data
    rw [String.data_append]
    simp only [List.mem_append]
    rintro (hm | hm)
    · exact absurd hm (by decide)
    · exact intChars_no_newline ms hm

lemma header_no_newline (m : Macro) (h : '\n' ∉ m.name.data) :
    '\n' ∉ ("macro " ++ m.name).data := by
  rw [data_header]
  intro hm
  simp only [List.mem_cons] at hm
  rcases hm with h' | h' | h' | h' | h' | h' | hm'
  · exact absurd h' (by decide)
  · exact absurd h' (by decide)
  · exact absurd h' (by decide)
  · exact absurd h' (by decide)
  · exact absurd h' (by decide)
  · exact absurd h' (by decide)
  · exact h hm'

/-- No line emitted by `SaveMacros` contains a newline, as long as the
macro names themselves do not. -/
lemma linesOf_no_newline (ms : List Macro) (h : ∀ m ∈ ms, '\n' ∉ m.name.data) :
    ∀ l ∈ linesOf ms, '\n' ∉ l.data := by
  induction ms with
  | nil => simp [linesOf]
  | cons m ms ih =>
    intro l hl
    have hsplit : l ∈ blockLines m ++ linesOf ms := hl
    rw [List.mem_append] at hsplit
    rcases hsplit with hl' | hl'
    · simp only [blockLines, List.mem_cons, List.mem_append, List.mem_map,
        List.mem_singleton] at hl'
      rcases hl' with (rfl | ⟨a, _, rfl⟩) | (rfl | h0)
      · exact header_no_newline m (h m (by simp))
      · exact actionLine_no_newline a
      · simp
      · simp at h0
    · exact ih (fun m' hm' => h m' (by simp [hm'])) l hl'

/-! ## Claim C1: codec round trip -/

/-- C1 as frozen is refuted by a name containing a newline: the name,
though non-empty, is split across two lines by the serializer, and the
decoder returns a macro named `"a"` instead of `"a\nb"`. -/
theorem claim1_newline_counterexample :
    ("a\nb" : String) ≠ "" ∧
    LoadMacrosText (SaveMacros [Macro.mk "a\nb" []]) ≠ [Macro.mk "a\nb" []] := by
  constructor
  · decide
  · decide

/-- C1 (amended): for every list of macros whose names are non-empty and
contain no newline character, and whose actions respect the data model
(`int`-ranged numeric fields, click buttons in `{left, right}`),
decoding the text produced by serializing the list yields exactly the
same ordered sequence of (name, ordered action list) pairs. -/
theorem claim1_roundtrip (M : List Macro)
    (h : ∀ m ∈ M, m.name ≠ "" ∧ '\n' ∉ m.name.data ∧ ∀ a ∈ m.actions, wfA a = true) :
    LoadMacrosText (SaveMacros M) = M := by
  unfold LoadMacrosText SaveMacros
  rw [splitLinesCh_concat (linesOf M) (linesOf_no_newline M (fun m hm => (h m hm).2.1))]
  unfold LoadMacros
  obtain ⟨ha, hb⟩ := foldl_linesOf M initSt rfl (fun m hm => (h m hm).2.2)
  unfold finishLoad
  rw [if_neg (by simp [hb]), ha]
  simp [initSt]

/-- Witness for C1 at a concrete two-macro store. -/
theorem claim1_roundtrip_witness :
    LoadMacrosText (SaveMacros [Macro.mk "demo" [Action.Move 10 (-3), Action.Click 1,
        Action.Key 72, Action.Delay 200], Macro.mk "second block" []]) =
      [Macro.mk "demo" [Action.Move 10 (-3), Action.Click 1,
        Action.Key 72, Action.Delay 200], Macro.mk "second block" []] :=
  claim1_roundtrip [Macro.mk "demo" [Action.Move 10 (-3), Action.Click 1,
    Action.Key 72, Action.Delay 200], Macro.mk "second block" []] (by decide)

/-! ## Claim C2: replay ordering and timing -/

lemma runActs_eq (acts : List Action) (config : AppConfig) :
    runActs acts config = (acts.map (replayEventsOf config)).foldr (· ++ ·) [] := by
  induction acts with
  | nil => rfl
  | cons a acts ih =>
    cases a <;> simp [runActs, replayEventsOf, ih]

/-- C2: replaying a macro produces, in action order, exactly the event
block the spec describes for each action — inject-then-default-pause
for move/click/key, a lone wait for delay — shown by refining `RunMacro`
into the per-action map `replayEventsOf`, plus the spec's concrete
scenario. -/
theorem claim2_replay_order :
    (∀ (m : Macro) (config : AppConfig),
      RunMacro m config = (m.actions.map (replayEventsOf config)).foldr (· ++ ·) []) ∧
    RunMacro (Macro.mk "demo" [Action.Move 10 5, Action.Delay 200, Action.Click 0])
        (AppConfig.mk 50) =
      [SinkEvent.MouseMove 10 5, SinkEvent.SleepMs 50, SinkEvent.SleepMs 200,
        SinkEvent.MouseClick false, SinkEvent.SleepMs 50] := by
  constructor
  · intro m config
    exact runActs_eq m.actions config
  · rfl

/-! ## Claim C3: malformed move lines are dropped, everything else kept -/

lemma stepTok_move_fail (st : LoadSt) (rest : List Char)
    (h : readTwoInts rest = none) : stepTok st "move" rest = st := by
  unfold stepTok
  rw [if_neg (by decide), if_neg (by decide)]
  cases hb : st.inBlock
  · rw [if_neg (by simp)]
  · rw [if_pos rfl, if_pos rfl, h]

/-- C3: a `move` step line whose arguments fail the two-integer parse is
dropped, while all other lines decode exactly as they would without it;
decoding itself is a total function, so no input is fatal. -/
theorem claim3_malformed_move_dropped (pre post : List String) (l : String)
    (htok : (firstTokenRest l.data).1 = "move")
    (hfail : readTwoInts (firstTokenRest l.data).2 = none) :
    LoadMacros (pre ++ l :: post) = LoadMacros (pre ++ post) := by
  have hstep : ∀ st : LoadSt, stepLine st l = st := by
    intro st
    unfold stepLine stepLineCh
    by_cases hnil : l.data = []
    · rw [if_pos hnil]
    · rw [if_neg hnil, htok, stepTok_move_fail st _ hfail]
  unfold LoadMacros
  rw [List.foldl_append, List.foldl_append, List.foldl_cons, hstep]

/-- Witness for C3: `move x 2` is dropped, `key 7` in the same block is
kept. -/
theorem claim3_witness :
    LoadMacros (["macro m"] ++ "move x 2" :: ["key 7", "end"]) =
      LoadMacros (["macro m"] ++ ["key 7", "end"]) :=
  claim3_malformed_move_dropped ["macro m"] ["key 7", "end"] "move x 2"
    (by decide) (by decide)

/-! ## Claim C4: the config non-negativity invariant (violated) -/

/-- C4 fails on the code: `LoadConfig` clamps only parse *failures* to
50; a successfully parsed negative value is stored as-is, so loading the
line `default_delay_ms=-5` leaves a negative `default_delay_ms`. -/
theorem claim4_negative_config_loaded :
    (LoadConfig (some "default_delay_ms=-5")).default_delay_ms = -5 ∧
    (LoadConfig (some "default_delay_ms=-5")).default_delay_ms < 0 := by
  constructor
  · decide
  · decide

/-! ## Claim C5: config loading always succeeds and falls back to 50 -/

lemma cfgline_contains (t : List Char) :
    ('d' :: 'e' :: 'f' :: 'a' :: 'u' :: 'l' :: 't' :: '_' :: 'd' :: 'e' :: 'l' :: 'a' ::
      'y' :: '_' :: 'm' :: 's' :: '=' :: t).contains '=' = true := rfl

lemma cfgline_take (t : List Char) :
    ('d' :: 'e' :: 'f' :: 'a' :: 'u' :: 'l' :: 't' :: '_' :: 'd' :: 'e' :: 'l' :: 'a' ::
      'y' :: '_' :: 'm' :: 's' :: '=' :: t).takeWhile (fun c => c != '=') =
      ("default_delay_ms" : String).data := rfl

lemma cfgline_drop (t : List Char) :
    (('d' :: 'e' :: 'f' :: 'a' :: 'u' :: 'l' :: 't' :: '_' :: 'd' :: 'e' :: 'l' :: 'a' ::
      'y' :: '_' :: 'm' :: 's' :: '=' :: t).dropWhile (fun c => c != '=')).drop 1 = t := rfl

lemma configStep_bad (cfg : AppConfig) (v : String) (hv : stoiOpt v = none) :
    configStep cfg ("default_delay_ms=" ++ v) = AppConfig.mk 50 := by
  have hdata : ("default_delay_ms=" ++ v).data =
      'd' :: 'e' :: 'f' :: 'a' :: 'u' :: 'l' :: 't' :: '_' :: 'd' :: 'e' :: 'l' :: 'a' ::
        'y' :: '_' :: 'm' :: 's' :: '=' :: v.data := by
    rw [String.data_append]; rfl
  unfold configStep
  rw [hdata]
  simp [cfgline_contains, cfgline_take, cfgline_drop, mk_data, hv]

/-- C5: decoding an absent config resource yields the default 50, and on
a `default_delay_ms=<value>` line whose value fails integer parsing the
field falls back to 50 (whatever it held before); loading is a total
function, so no content aborts it. -/
theorem claim5_config_fallback :
    (LoadConfig none).default_delay_ms = 50 ∧
    ∀ (cfg : AppConfig) (v : String), stoiOpt v = none →
      (configStep cfg ("default_delay_ms=" ++ v)).default_delay_ms = 50 :=
  ⟨rfl, fun cfg v hv => by rw [configStep_bad cfg v hv]⟩

/-- Witness for C5 at the unparsable value `abc`, starting from a config
holding 7. -/
theorem claim5_witness :
    (configStep (AppConfig.mk 7) ("default_delay_ms=" ++ "abc")).default_delay_ms = 50 :=
  claim5_config_fallback.2 (AppConfig.mk 7) "abc" (by decide)

/-! ## Claim C6: EOF acts as an implicit `end` -/

lemma finishLoad_end (st : LoadSt) : finishLoad (stepLine st "end") = finishLoad st := by
  cases hb : st.inBlock
  · rw [stepLine_end_false st hb]
  · rw [stepLine_end_true st hb]
    unfold finishLoad
    rw [hb]
    simp

/-- C6: a macro text is decoded exactly as if a final `end` line were
present — in particular an unterminated final block is still emitted
with all its parsed steps. -/
theorem claim6_eof_closes_block (ls : List String) :
    LoadMacros (ls ++ ["end"]) = LoadMacros ls := by
  unfold LoadMacros
  rw [List.foldl_append]
  show finishLoad (stepLine (ls.foldl stepLine initSt) "end") = _
  rw [finishLoad_end]

/-! ## Claim C7: a new `macro` header implicitly closes the open block -/

lemma stepLine_end_header (st : LoadSt) (n : String) :
    stepLine (stepLine st "end") ("macro " ++ n) = stepLine st ("macro " ++ n) := by
  cases hb : st.inBlock
  · rw [stepLine_end_false st hb]
  · rw [stepLine_end_true st hb, stepLine_header, stepLine_header, hb]
    simp

/-- C7: a `macro <name>` header seen while a block is open first emits
the open block with the steps parsed so far (conjunct 2), so decoding a
text is unchanged by inserting an explicit `end` before any header
(conjunct 1). -/
theorem claim7_header_closes_block :
    (∀ (pre post : List String) (n : String),
      LoadMacros (pre ++ ("macro " ++ n) :: post) =
        LoadMacros (pre ++ "end" :: ("macro " ++ n) :: post)) ∧
    (∀ (st : LoadSt) (n : String), st.inBlock = true →
      stepLine st ("macro " ++ n) =
        LoadSt.mk (st.store ++ [st.current]) (Macro.mk n []) true) := by
  constructor
  · intro pre post n
    unfold LoadMacros
    rw [List.foldl_append, List.foldl_append, List.foldl_cons, List.foldl_cons,
      List.foldl_cons, stepLine_end_header]
  · intro st n h
    rw [stepLine_header, h]
    simp

/-- Witness for C7: the open block named `m` is emitted when the header
`macro x` arrives. -/
theorem claim7_witness :
    stepLine (LoadSt.mk [] (Macro.mk "m" [Action.Key 7]) true) ("macro " ++ "x") =
      LoadSt.mk [Macro.mk "m" [Action.Key 7]] (Macro.mk "x" []) true :=
  claim7_header_closes_block.2 (LoadSt.mk [] (Macro.mk "m" [Action.Key 7]) true) "x" rfl

/-! ## Claim C8: delete by 1-based position -/

lemma eraseIdx_take_drop {α : Type} (l : List α) (i : Nat) :
    l.eraseIdx i = l.take i ++ l.drop (i + 1) := by
  induction l generalizing i with
  | nil => simp [List.eraseIdx]
  | cons x l ih =>
    cases i with
    | zero => simp [List.eraseIdx]
    | succ i => simp [List.eraseIdx, ih]

/-- C8: an in-range 1-based position deletes exactly the p-th macro,
leaving the rest in order; an out-of-range position leaves the store
unchanged and reports the no-op. -/
theorem claim8_delete_by_position (ms : List Macro) (p : Int) :
    (1 ≤ p ∧ p ≤ (ms.length : Int) →
      DeleteMacroAt ms p = (ms.take (p - 1).toNat ++ ms.drop p.toNat, true)) ∧
    (p < 1 ∨ (ms.length : Int) < p → DeleteMacroAt ms p = (ms, false)) := by
  constructor
  · rintro ⟨h1, h2⟩
    unfold DeleteMacroAt
    rw [if_neg (by omega), eraseIdx_take_drop]
    have hidx : (p - 1).toNat + 1 = p.toNat := by omega
    rw [hidx]
  · intro h
    unfold DeleteMacroAt
    rw [if_pos h]

/-- Witness for C8: deleting position 1 from `[A, B, C]` yields
`[B, C]`; position 4 is a reported no-op. -/
theorem claim8_witness :
    DeleteMacroAt [Macro.mk "A" [], Macro.mk "B" [], Macro.mk "C" []] 1 =
      ([Macro.mk "B" [], Macro.mk "C" []], true) ∧
    DeleteMacroAt [Macro.mk "A" [], Macro.mk "B" [], Macro.mk "C" []] 4 =
      ([Macro.mk "A" [], Macro.mk "B" [], Macro.mk "C" []], false) := by
  constructor
  · exact ((claim8_delete_by_position [Macro.mk "A" [], Macro.mk "B" [],
      Macro.mk "C" []] 1).1 ⟨by decide, by decide⟩).trans (by decide)
  · exact (claim8_delete_by_position [Macro.mk "A" [], Macro.mk "B" [],
      Macro.mk "C" []] 4).2 (Or.inr (by decide))

/-! ## Claim C9: EOF during step entry ends creation like `done` -/

lemma createLoop_nil (m : Macro) : createLoop m [] = (m, []) := by
  unfold createLoop
  rfl

lemma createLoop_done (m : Macro) (rest : List String) :
    createLoop m ("done" :: rest) = (m, rest) := by
  conv_lhs => rw [createLoop]
  rw [if_pos rfl]

lemma createLoop_move (m : Macro) (rest : List String) :
    createLoop m ("move" :: rest) =
      if (readIndexL rest).1 = -1 ∨ (readIndexL rest.tail).1 = -1 then
        createLoop m rest.tail.tail
      else
        createLoop { m with actions := m.actions ++
          [Action.Move (readIndexL rest).1 (readIndexL rest.tail).1] } rest.tail.tail := by
  conv_lhs => rw [createLoop]
  rw [if_neg (by decide), if_pos rfl]

lemma createLoop_click (m : Macro) (rest : List String) :
    createLoop m ("click" :: rest) =
      createLoop { m with actions := m.actions ++
        [Action.Click (buttonCode (readLineL rest).1)] } rest.tail := by
  conv_lhs => rw [createLoop]
  rw [if_neg (by decide), if_neg (by decide), if_pos rfl]

lemma createLoop_key (m : Macro) (rest : List String) :
    createLoop m ("key" :: rest) =
      if (readIndexL rest).1 = -1 then createLoop m rest.tail
      else createLoop { m with actions := m.actions ++
        [Action.Key (readIndexL rest).1] } rest.tail := by
  conv_lhs => rw [createLoop]
  rw [if_neg (by decide), if_neg (by decide), if_neg (by decide), if_pos rfl]

lemma createLoop_delay (m : Macro) (rest : List String) :
    createLoop m ("delay" :: rest) =
      if (readIndexL rest).1 = -1 then createLoop m rest.tail
      else createLoop { m with actions := m.actions ++
        [Action.Delay (readIndexL rest).1] } rest.tail := by
  conv_lhs => rw [createLoop]
  rw [if_neg (by decide), if_neg (by decide), if_neg (by decide), if_neg (by decide),
    if_pos rfl]

lemma createLoop_other (m : Macro) (step : String) (rest : List String)
    (h1 : step ≠ "done") (h2 : step ≠ "move") (h3 : step ≠ "click")
    (h4 : step ≠ "key") (h5 : step ≠ "delay") :
    createLoop m (step :: rest) = createLoop m rest := by
  conv_lhs => rw [createLoop]
  rw [if_neg h1, if_neg h2, if_neg h3, if_neg h4, if_neg h5]

lemma createLoop_name_fuel (fuel : Nat) :
    ∀ (input : List String) (m : Macro), input.length ≤ fuel →
      (createLoop m input).1.name = m.name := by
  induction fuel with
  | zero =>
    intro input m hlen
    have hnil : input = [] := by cases input <;> simp_all
    subst hnil
    rw [createLoop_nil]
  | succ f ih =>
    intro input m hlen
    cases input with
    | nil => rw [createLoop_nil]
    | cons step rest =>
      have hr : rest.length ≤ f := by
        simp only [List.length_cons] at hlen; omega
      have ht1 : rest.tail.length ≤ f := by
        simp only [List.length_tail]; omega
      have ht2 : rest.tail.tail.length ≤ f := by
        simp only [List.length_tail]; omega
      by_cases h1 : step = "done"
      · subst h1; rw [createLoop_done]
      by_cases h2 : step = "move"
      · subst h2
        rw [createLoop_move]
        by_cases hx : (readIndexL rest).1 = -1 ∨ (readIndexL rest.tail).1 = -1
        · rw [if_pos hx]; exact ih rest.tail.tail m ht2
        · rw [if_neg hx]; exact ih rest.tail.tail _ ht2
      by_cases h3 : step = "click"
      · subst h3
        rw [createLoop_click]
        exact ih rest.tail _ ht1
      by_cases h4 : step = "key"
      · subst h4
        rw [createLoop_key]
        by_cases hx : (readIndexL rest).1 = -1
        · rw [if_pos hx]; exact ih rest.tail m ht1
        · rw [if_neg hx]; exact ih rest.tail _ ht1
      by_cases h5 : step = "delay"
      · subst h5
        rw [createLoop_delay]
        by_cases hx : (readIndexL rest).1 = -1
        · rw [if_pos hx]; exact ih rest.tail m ht1
        · rw [if_neg hx]; exact ih rest.tail _ ht1
      rw [createLoop_other m step rest h1 h2 h3 h4 h5]
      exact ih rest m hr

lemma stoiOpt_done : stoiOpt "done" = none := by decide

lemma createLoop_append_done_fuel (fuel : Nat) :
    ∀ (input : List String) (m : Macro), input.length ≤ fuel →
      (createLoop m (input ++ ["done"])).1 = (createLoop m input).1 := by
  induction fuel with
  | zero =>
    intro input m hlen
    have hnil : input = [] := by cases input <;> simp_all
    subst hnil
    rw [List.nil_append, createLoop_done, createLoop_nil]
  | succ f ih =>
    intro input m hlen
    cases input with
    | nil => rw [List.nil_append, createLoop_done, createLoop_nil]
    | cons step rest =>
      rw [List.cons_append]
      by_cases h1 : step = "done"
      · subst h1; rw [createLoop_done, createLoop_done]
      by_cases h2 : step = "move"
      · subst h2
        rw [createLoop_move, createLoop_move]
        cases rest with
        | nil => simp [readIndexL, stoiOpt_done]
        | cons a rest2 =>
          rw [List.cons_append]
          cases rest2 with
          | nil => simp [readIndexL, stoiOpt_done]
          | cons b rest3 =>
            have hlen3 : rest3.length ≤ f := by
              simp only [List.length_cons] at hlen; omega
            rw [List.cons_append]
            simp only [readIndexL, List.tail_cons]
            by_cases hx : (stoiOpt a).getD (-1) = -1 ∨ (stoiOpt b).getD (-1) = -1
            · rw [if_pos hx, if_pos hx]
              exact ih rest3 m hlen3
            · rw [if_neg hx, if_neg hx]
              exact ih rest3 _ hlen3
      by_cases h3 : step = "click"
      · subst h3
        rw [createLoop_click, createLoop_click]
        cases rest with
        | nil => simp [readLineL, buttonCode]
        | cons a rest2 =>
          rw [List.cons_append]
          simp only [readLineL, List.tail_cons]
          have hlen2 : rest2.length ≤ f := by
            simp only [List.length_cons] at hlen; omega
          exact ih rest2 _ hlen2
      by_cases h4 : step = "key"
      · subst h4
        rw [createLoop_key, createLoop_key]
        cases rest with
        | nil => simp [readIndexL, stoiOpt_done]
        | cons a rest2 =>
          rw [List.cons_append]
          simp only [readIndexL, List.tail_cons]
          have hlen2 : rest2.length ≤ f := by
            simp only [List.length_cons] at hlen; omega
          by_cases hx : (stoiOpt a).getD (-1) = -1
          · rw [if_pos hx, if_pos hx]
            exact ih rest2 m hlen2
          · rw [if_neg hx, if_neg hx]
            exact ih rest2 _ hlen2
      by_cases h5 : step = "delay"
      · subst h5
        rw [createLoop_delay, createLoop_delay]
        cases rest with
        | nil => simp [readIndexL, stoiOpt_done]
        | cons a rest2 =>
          rw [List.cons_append]
          simp only [readIndexL, List.tail_cons]
          have hlen2 : rest2.length ≤ f := by
            simp only [List.length_cons] at hlen; omega
          by_cases hx : (stoiOpt a).getD (-1) = -1
          · rw [if_pos hx, if_pos hx]
            exact ih rest2 m hlen2
          · rw [if_neg hx, if_neg hx]
            exact ih rest2 _ hlen2
      rw [createLoop_other m step _ h1 h2 h3 h4 h5,
        createLoop_other m step rest h1 h2 h3 h4 h5]
      have hlen2 : rest.length ≤ f := by
        simp only [List.length_cons] at hlen; omega
      exact ih rest m hlen2

/-- C9: when the interactive input ends (EOF) during step entry after a
non-empty name, creation finishes exactly as if `done` had been entered
(conjunct 1), and the macro named as entered, with the steps accumulated
so far, is appended to the store (conjuncts 2 and 3). -/
theorem claim9_eof_ends_creation (ms : List Macro) (name : String)
    (script : List String) (h : name ≠ "") :
    (CreateMacro ms (name :: script)).1 =
      (CreateMacro ms (name :: (script ++ ["done"]))).1 ∧
    (CreateMacro ms (name :: script)).1 =
      ms ++ [(createLoop (Macro.mk name []) script).1] ∧
    ((createLoop (Macro.mk name []) script).1).name = name := by
  have hcm : ∀ s : List String, (CreateMacro ms (name :: s)).1 =
      ms ++ [(createLoop (Macro.mk name []) s).1] := by
    intro s
    unfold CreateMacro
    rw [show (readLineL (name :: s)).1 = name from rfl, if_neg h]
    rfl
  refine ⟨?_, hcm script, ?_⟩
  · rw [hcm script, hcm (script ++ ["done"]),
      createLoop_append_done_fuel script.length script (Macro.mk name []) le_rfl]
  · exact createLoop_name_fuel script.length script (Macro.mk name []) le_rfl

/-- Witness for C9: input ends right after one `click` step. -/
theorem claim9_witness :
    (CreateMacro [] ("m" :: ["click"])).1 =
      (CreateMacro [] ("m" :: (["click"] ++ ["done"]))).1 ∧
    (CreateMacro [] ("m" :: ["click"])).1 =
      [] ++ [(createLoop (Macro.mk "m" []) ["click"]).1] ∧
    ((createLoop (Macro.mk "m" []) ["click"]).1).name = "m" :=
  claim9_eof_ends_creation [] "m" ["click"] (by decide)

/-! ## Claim C10: click codes are always 0 (left) or 1 (right) -/

lemma clickOK_buttonCode (bt : String) : clickOK (Action.Click (buttonCode bt)) = true := by
  unfold buttonCode clickOK
  by_cases h : bt = "right" <;> simp [h]

lemma stInv_push (st : LoadSt) (a : Action) (h : stInv st) (ha : clickOK a = true) :
    stInv (pushAction st a) := by
  obtain ⟨h1, h2⟩ := h
  refine ⟨h1, ?_⟩
  show macroClicksOK (Macro.mk st.current.name (st.current.actions ++ [a])) = true
  simp only [macroClicksOK, List.all_append] at h2 ⊢
  simp [h2, ha, List.all_cons]

lemma stepTok_inv (st : LoadSt) (token : String) (rest : List Char) (h : stInv st) :
    stInv (stepTok st token rest) := by
  obtain ⟨h1, h2⟩ := h
  unfold stepTok
  by_cases t1 : token = "macro"
  · rw [if_pos t1]
    refine ⟨?_, by simp [macroClicksOK]⟩
    intro m hm
    by_cases hb : st.inBlock = true
    · rw [if_pos hb] at hm
      rcases List.mem_append.mp hm with hm' | hm'
      · exact h1 m hm'
      · rcases List.mem_singleton.mp hm' with rfl
        exact h2
    · rw [if_neg hb] at hm
      exact h1 m hm
  rw [if_neg t1]
  by_cases t2 : token = "end"
  · rw [if_pos t2]
    by_cases hb : st.inBlock = true
    · rw [if_pos hb]
      refine ⟨?_, by simp [macroClicksOK]⟩
      intro m hm
      rcases List.mem_append.mp hm with hm' | hm'
      · exact h1 m hm'
      · rcases List.mem_singleton.mp hm' with rfl
        exact h2
    · rw [if_neg hb]
      exact ⟨h1, h2⟩
  rw [if_neg t2]
  by_cases hb : st.inBlock = true
  · rw [if_pos hb]
    by_cases t3 : token = "move"
    · rw [if_pos t3]
      cases hm : readTwoInts rest with
      | none => exact ⟨h1, h2⟩
      | some p => exact stInv_push st (Action.Move p.1 p.2) ⟨h1, h2⟩ rfl
    rw [if_neg t3]
    by_cases t4 : token = "click"
    · rw [if_pos t4]
      unfold stepClick
      by_cases hbt : (firstTokenRest rest).1 = ""
      · rw [if_pos hbt]
        exact ⟨h1, h2⟩
      · rw [if_neg hbt]
        exact stInv_push st _ ⟨h1, h2⟩ (clickOK_buttonCode _)
    rw [if_neg t4]
    by_cases t5 : token = "key"
    · rw [if_pos t5]
      cases hm : readIntCh rest with
      | none => exact ⟨h1, h2⟩
      | some p => exact stInv_push st (Action.Key p.1) ⟨h1, h2⟩ rfl
    rw [if_neg t5]
    by_cases t6 : token = "delay"
    · rw [if_pos t6]
      cases hm : readIntCh rest with
      | none => exact ⟨h1, h2⟩
      | some p => exact stInv_push st (Action.Delay p.1) ⟨h1, h2⟩ rfl
    rw [if_neg t6]
    exact ⟨h1, h2⟩
  · rw [if_neg hb]
    exact ⟨h1, h2⟩

lemma stepLine_inv (st : LoadSt) (l : String) (h : stInv st) : stInv (stepLine st l) := by
  unfold stepLine stepLineCh
  by_cases hnil : l.data = []
  · rw [if_pos hnil]; exact h
  · rw [if_neg hnil]; exact stepTok_inv st _ _ h

lemma foldl_inv (ls : List String) (st : LoadSt) (h : stInv st) :
    stInv (ls.foldl stepLine st) := by
  induction ls generalizing st with
  | nil => exact h
  | cons l ls ih => exact ih (stepLine st l) (stepLine_inv st l h)

lemma LoadMacros_clicksOK (ls : List String) :
    ∀ m ∈ LoadMacros ls, macroClicksOK m = true := by
  intro m hm
  obtain ⟨h1, h2⟩ := foldl_inv ls initSt ⟨by simp [initSt], by simp [initSt, macroClicksOK]⟩
  unfold LoadMacros finishLoad at hm
  by_cases hb : (ls.foldl stepLine initSt).inBlock = true
  · rw [if_pos hb] at hm
    rcases List.mem_append.mp hm with hm' | hm'
    · exact h1 m hm'
    · rcases List.mem_singleton.mp hm' with rfl
      exact h2
  · rw [if_neg hb] at hm
    exact h1 m hm

lemma createLoop_clicksOK_fuel (fuel : Nat) :
    ∀ (input : List String) (m : Macro), input.length ≤ fuel →
      macroClicksOK m = true → macroClicksOK (createLoop m input).1 = true := by
  induction fuel with
  | zero =>
    intro input m hlen hm
    have hnil : input = [] := by cases input <;> simp_all
    subst hnil
    rw [createLoop_nil]
    exact hm
  | succ f ih =>
    intro input m hlen hm
    cases input with
    | nil => rw [createLoop_nil]; exact hm
    | cons step rest =>
      have hr : rest.length ≤ f := by
        simp only [List.length_cons] at hlen; omega
      have ht1 : rest.tail.length ≤ f := by
        simp only [List.length_tail]; omega
      have ht2 : rest.tail.tail.length ≤ f := by
        simp only [List.length_tail]; omega
      have hpush : ∀ a : Action, clickOK a = true →
          macroClicksOK (Macro.mk m.name (m.actions ++ [a])) = true := by
        intro a ha
        simp only [macroClicksOK, List.all_append] at hm ⊢
        simp [hm, ha, List.all_cons]
      by_cases h1 : step = "done"
      · subst h1; rw [createLoop_done]; exact hm
      by_cases h2 : step = "move"
      · subst h2
        rw [createLoop_move]
        by_cases hx : (readIndexL rest).1 = -1 ∨ (readIndexL rest.tail).1 = -1
        · rw [if_pos hx]; exact ih rest.tail.tail m ht2 hm
        · rw [if_neg hx]
          exact ih rest.tail.tail _ ht2 (hpush _ rfl)
      by_cases h3 : step = "click"
      · subst h3
        rw [createLoop_click]
        exact ih rest.tail _ ht1 (hpush _ (clickOK_buttonCode _))
      by_cases h4 : step = "key"
      · subst h4
        rw [createLoop_key]
        by_cases hx : (readIndexL rest).1 = -1
        · rw [if_pos hx]; exact ih rest.tail m ht1 hm
        · rw [if_neg hx]; exact ih rest.tail _ ht1 (hpush _ rfl)
      by_cases h5 : step = "delay"
      · subst h5
        rw [createLoop_delay]
        by_cases hx : (readIndexL rest).1 = -1
        · rw [if_pos hx]; exact ih rest.tail m ht1 hm
        · rw [if_neg hx]; exact ih rest.tail _ ht1 (hpush _ rfl)
      rw [createLoop_other m step rest h1 h2 h3 h4 h5]
      exact ih rest m hr hm

lemma CreateMacro_clicksOK (ms : List Macro) (input : List String)
    (h : ∀ m ∈ ms, macroClicksOK m = true) :
    ∀ m ∈ (CreateMacro ms input).1, macroClicksOK m = true := by
  intro m hm
  unfold CreateMacro at hm
  by_cases hname : (readLineL input).1 = ""
  · rw [if_pos hname] at hm
    exact h m hm
  · rw [if_neg hname] at hm
    rcases List.mem_append.mp hm with hm' | hm'
    · exact h m hm'
    · rcases List.mem_singleton.mp hm' with rfl
      exact createLoop_clicksOK_fuel (readLineL input).2.length (readLineL input).2 _
        le_rfl (by simp [macroClicksOK])

/-- C10: every click action a decoded store or an interactively created
store can contain carries button code 0 or 1 (any token other than
`right` maps to 0), and the serializer's `buttonName` encoding is
inverted exactly by the decoder's `buttonCode`, so no button information
is lost. -/
theorem claim10_click_codes :
    (∀ (ls : List String), ∀ m ∈ LoadMacros ls, macroClicksOK m = true) ∧
    (∀ (ms : List Macro) (input : List String),
      (∀ m ∈ ms, macroClicksOK m = true) →
      ∀ m ∈ (CreateMacro ms input).1, macroClicksOK m = true) ∧
    (∀ code : Int, code = 0 ∨ code = 1 → buttonCode (buttonName code) = code) := by
  refine ⟨LoadMacros_clicksOK, CreateMacro_clicksOK, ?_⟩
  rintro code (rfl | rfl)
  · decide
  · decide

/-- Witness for C10: the loader invariant at a concrete resource (the
unknown token `q` decodes to a left click), and the `right` code 1
surviving the encode/decode pair. -/
theorem claim10_witness :
    macroClicksOK (Macro.mk "x" [Action.Click 0]) = true ∧
    buttonCode (buttonName 1) = 1 :=
  ⟨claim10_click_codes.1 ["macro x", "click q", "end"]
      (Macro.mk "x" [Action.Click 0]) (by decide),
   claim10_click_codes.2.2 1 (Or.inr rfl)⟩

end MacroConsole
